import Mathlib

/-!
Verification of the interactive core of the portfolio single-page app
(`src/src/App.jsx`): scroll-spy active-section tracking, accent preference
persistence, project filtering and tag vocabulary, modal action selection,
clipboard-copy toast outcomes, and toast replacement timing.

The JavaScript source is shallowly embedded: pure derivations become
Lean functions, the browser's key-value storage and its possible
exceptions become an explicit `Storage` value with `Except` results,
intersection-observer callbacks become a step function on the active id,
and the toast's `setTimeout`/`clearTimeout` pair becomes an explicit
message-plus-deadline state with integer time in milliseconds.
-/

namespace Portfolio

/-- An accent preset from the `ACCENTS` constant: a display name and a CSS
color value. -/
structure AccentPreset where
  name : String
  value : String
deriving DecidableEq, Repr

/-- The `ACCENTS` palette from `App.jsx` lines 31-38. -/
def ACCENTS : List AccentPreset :=
  [ { name := "Neon", value := "#7C3AED" },
    { name := "Ocean", value := "#06B6D4" },
    { name := "Lime", value := "#84CC16" },
    { name := "Sunset", value := "#FB7185" },
    { name := "Gold", value := "#F59E0B" },
    { name := "Blue", value := "#3B82F6" } ]

/-- The optional link kinds a project may carry (`links` object literals in
`PROJECTS`): live demo, source code, and the ArtStation gallery. A missing
key is `none`. -/
structure Links where
  live : Option String := none
  source : Option String := none
  artstation : Option String := none
deriving DecidableEq, Repr

/-- A project entry as in the `PROJECTS` constant: title, short blurb,
description, ordered tag list, and optional links. -/
structure Project where
  title : String
  short : String
  description : String
  tags : List String
  links : Links
deriving DecidableEq, Repr

/-- The `PROJECTS` constant from `App.jsx` lines 49-81. -/
def PROJECTS : List Project :=
  [ { title := "Pc Pricer",
      short := "React + Vite",
      description := "PcPricer is a high-performance web application designed to simplify the PC building",
      tags := ["HTML", "CSS", "JS"],
      links := { live := some "https://pc-pricer.vercel.app/",
                 source := some "https://github.com/IvanSh-dev/pc-pricer" } },
    { title := "Kinematic Analysis",
      short := "Maths + Physics",
      description := "A desktop application built with Python and Tkinter for calculating and visualizing the velocity vector diagrams of a slider-crank mechanism.",
      tags := ["Python", "Tkinter"],
      links := { source := some "https://github.com/IvanSh-dev/kinematic-analysis-python" } },
    { title := "3D Design projects",
      short := "Low poly + Textures",
      description := "Bringing concepts to life through 3D visualization and lighting.",
      tags := ["Blender", "Cycles", "Animation"],
      links := { artstation := some "https://www.artstation.com/ivsh" } } ]

/-! ## Preference Store (accent persistence)

`App.jsx` line 225 reads `window.localStorage.getItem("accent") || ACCENTS[0].value`
with no try/catch; lines 232-235 write `window.localStorage.setItem("accent", accent)`
with no try/catch. The storage facility is modelled as either unavailable
(every operation throws, as browsers do when persistence is disabled) or a
key-value association list; a thrown exception is `Except.error ()`. -/

/-- The durable key-value storage facility: unavailable (get/set throw) or
an association list of key-value pairs (newest first). -/
inductive Storage
  | unavailable
  | available (entries : List (String × String))
deriving DecidableEq, Repr

/-- `localStorage.getItem(k)`: throws when storage is unavailable;
otherwise returns the stored string or null (`none`). -/
def getItem (s : Storage) (k : String) : Except Unit (Option String) :=
  match s with
  | .unavailable => .error ()
  | .available m => .ok (m.lookup k)

/-- `localStorage.setItem(k, v)`: throws when storage is unavailable;
otherwise stores `v` under `k`. -/
def setItem (s : Storage) (k : String) (v : String) : Except Unit Storage :=
  match s with
  | .unavailable => .error ()
  | .available m => .ok (.available ((k, v) :: m))

/-- The default accent, `ACCENTS[0].value` (`App.jsx` line 225). -/
def accentDefault : String :=
  (ACCENTS.headD { name := "", value := "" }).value

/-- JavaScript `a || b` on a nullable string `a`: `b` when `a` is null or
the empty string (both falsy), else `a`. -/
def jsOrDefault (v : Option String) (dflt : String) : String :=
  match v with
  | none => dflt
  | some s => if s = "" then dflt else s

/-- The accent `useState` initializer (`App.jsx` lines 224-226):
`window.localStorage.getItem("accent") || ACCENTS[0].value`, with no
exception handling, so an unavailable storage propagates its error. -/
def loadAccent (s : Storage) : Except Unit String :=
  (getItem s "accent").map (fun v => jsOrDefault v accentDefault)

/-- The accent persistence effect (`App.jsx` lines 232-235):
`window.localStorage.setItem("accent", accent)`, with no exception
handling, so an unavailable storage propagates its error. -/
def saveAccent (s : Storage) (a : String) : Except Unit Storage :=
  setItem s "accent" a

/-! ## Filter Engine -/

/-- `visibleProjects` (`App.jsx` lines 252-255): the whole list when the
active filter is "All", otherwise the projects whose tag list includes the
filter (`p.tags.includes(filter)`, case-sensitive string equality). The
source closes over the constant `PROJECTS`; the list is a parameter here. -/
def visibleProjects (all : List Project) (filter : String) : List Project :=
  if filter = "All" then all
  else all.filter (fun p => p.tags.contains filter)

/-- One step of the `Set.add` accumulation in `allTags`: append the tag
unless already present (JS `Set` keeps first-insertion order). -/
def addTag (acc : List String) (t : String) : List String :=
  if acc.contains t then acc else acc ++ [t]

/-- `allTags` (`App.jsx` lines 246-250): "All" followed by every project
tag in first-insertion order, deduplicated by the JS `Set`. The source
closes over the constant `PROJECTS`; the list is a parameter here. -/
def allTags (all : List Project) : List String :=
  "All" :: all.foldl (fun acc p => p.tags.foldl addTag acc) []

/-- All tags of a project list in traversal order, with duplicates:
the order in which `allTags` feeds tags to the `Set`. -/
def flatTags : List Project → List String
  | [] => []
  | p :: ps => p.tags ++ flatTags ps

/-- Index of the first occurrence of `x` in a list (length of the list if
absent); used to state the first-seen ordering of the tag vocabulary. -/
def firstIdx (x : String) : List String → Nat
  | [] => 0
  | y :: ys => if y = x then 0 else firstIdx x ys + 1

/-- First-seen deduplication of a list, skipping elements already in
`seen`; characterizes the fold of `addTag`. -/
def fsDedup (seen : List String) : List String → List String
  | [] => []
  | t :: ts => if seen.contains t then fsDedup seen ts
               else t :: fsDedup (seen ++ [t]) ts

/-! ## Modal action selection -/

/-- One action button of the modal footer (`App.jsx` lines 193-213). -/
inductive ModalAction
  | gallery (url : String)
  | sourceLink (url : String)
  | liveLink (url : String)
deriving DecidableEq, Repr

/-- JavaScript truthiness of a nullable string: false for null and the
empty string. -/
def jsTruthy (v : Option String) : Bool :=
  match v with
  | none => false
  | some s => s ≠ ""

/-- The else-branch of the modal actions (`App.jsx` lines 199-211): the
code link if truthy, then the live link if truthy. -/
def codeLiveActions (l : Links) : List ModalAction :=
  (match l.source with
   | some c => if c = "" then [] else [ModalAction.sourceLink c]
   | none => []) ++
  (match l.live with
   | some v => if v = "" then [] else [ModalAction.liveLink v]
   | none => [])

/-- The modal's action list (`App.jsx` lines 193-213): when
`project.links.artstation` is truthy, only the ArtStation gallery button;
otherwise the code button (if truthy) then the live button (if truthy). -/
def modalActions (p : Project) : List ModalAction :=
  match p.links.artstation with
  | some g => if g = "" then codeLiveActions p.links else [ModalAction.gallery g]
  | none => codeLiveActions p.links

/-- The list an optional present link contributes: used to state the
claim's "shown if present, omitted if absent". -/
def optList (mk : String → ModalAction) (v : Option String) : List ModalAction :=
  match v with
  | some u => [mk u]
  | none => []

/-! ## Clipboard copy -/

/-- The toast message produced by `copy(text, label)` (`App.jsx` lines
257-264): on a successful clipboard write, `` `${label} copied` ``; on any
rejection, caught by the bare `catch`, "Copy failed". Total: no failure
escapes. -/
def copyMsg (result : Except Unit Unit) (lbl : String) : String :=
  match result with
  | .ok _ => lbl ++ " copied"
  | .error _ => "Copy failed"

/-! ## Toast Notifier

`setToast(m)` replaces the toast state; the `Toast` component (`App.jsx`
lines 143-158) schedules `setTimeout(onClose, 1800)` and clears the old
timer whenever the message changes, so the dismissal deadline is always
1800 ms after the latest `show`. State: the visible message with its
dismissal deadline, or `none`. Time is integer milliseconds. -/

/-- `show(m)` at time `now`: replaces any visible toast (no queue) and
restarts the 1800 ms dismissal timer. -/
def toastShow (_prev : Option (String × Int)) (m : String) (now : Int) :
    Option (String × Int) :=
  some (m, now + 1800)

/-- A dismissal-timer tick at time `now`: clears the toast once its
deadline has been reached; earlier ticks (stale timers were cancelled by
`clearTimeout`) leave it visible. -/
def toastTimerFire (s : Option (String × Int)) (now : Int) :
    Option (String × Int) :=
  match s with
  | some (m, d) => if d ≤ now then none else some (m, d)
  | none => none

/-! ## Scroll-Spy Observer -/

/-- One intersection-observer entry as consumed by the `useScrollSpy`
callback (`App.jsx` lines 127-132): target element id, whether it is
currently intersecting, and the (possibly null) intersection ratio. -/
structure IEntry where
  id : String
  isIntersecting : Bool
  ratioOpt : Option ℚ
deriving DecidableEq

/-- The sort key `e.intersectionRatio ?? 0`. -/
def ratioKey (e : IEntry) : ℚ :=
  e.ratioOpt.getD 0

/-- Stable insertion into a ratio-descending list: the element moves ahead
only past strictly smaller keys, as the comparator
`(b.intersectionRatio ?? 0) - (a.intersectionRatio ?? 0)` does under JS's
stable sort. -/
def insertDesc (e : IEntry) : List IEntry → List IEntry
  | [] => [e]
  | x :: xs => if ratioKey x < ratioKey e then e :: x :: xs
               else x :: insertDesc e xs

/-- Stable sort by intersection ratio, descending (`entries.sort(...)`). -/
def sortDesc (l : List IEntry) : List IEntry :=
  l.foldl (fun acc e => insertDesc e acc) []

/-- The `useScrollSpy` initial state (`App.jsx` line 121):
`ids[0] ?? "home"`. -/
def scrollSpyInit (ids : List String) : String :=
  ids.head?.getD "home"

/-- One observer callback (`App.jsx` lines 127-132): keep the intersecting
entries, sort by ratio descending, and if the top entry exists and its id
is truthy set it active; otherwise keep the previous active id. -/
def scrollSpyStep (active : String) (entries : List IEntry) : String :=
  match sortDesc (entries.filter (fun e => e.isIntersecting)) with
  | [] => active
  | e :: _ => if e.id = "" then active else e.id

/-- The active id after a sequence of observer callback batches, starting
from the initial state. -/
def scrollSpyRun (ids : List String) (batches : List (List IEntry)) : String :=
  batches.foldl scrollSpyStep (scrollSpyInit ids)

end Portfolio

namespace Portfolio

/-! ## Theorems -/

/-- C10: before any intersection notification the active id is the first
configured id, and for the empty id list it is the string "home". -/
theorem scrollSpy_initial_active :
    (∀ x xs, scrollSpyInit (x :: xs) = x) ∧ scrollSpyInit [] = "home" := by
  exact ⟨fun x xs => rfl, rfl⟩

/-- C2: `visibleProjects` returns the whole list unchanged for the "All"
sentinel, and for any tag other than the sentinel it returns exactly the
ordered subsequence of projects whose tag list contains the tag
(case-sensitive). -/
theorem visibleProjects_spec (all : List Project) (t : String) (ht : t ≠ "All") :
    visibleProjects all "All" = all ∧
    visibleProjects all t = all.filter (fun p => decide (t ∈ p.tags)) ∧
    (visibleProjects all t).Sublist all ∧
    (∀ p, p ∈ visibleProjects all t ↔ p ∈ all ∧ t ∈ p.tags) := by
  have hco : ∀ p : Project, (p.tags.contains t) = decide (t ∈ p.tags) := by
    intro p
    by_cases h : t ∈ p.tags <;> simp [h]
  have h2 : visibleProjects all t = all.filter (fun p => decide (t ∈ p.tags)) := by
    simp only [visibleProjects, if_neg ht]
    exact List.filter_congr (fun p _ => hco p)
  refine ⟨by simp [visibleProjects], h2, ?_, ?_⟩
  · rw [h2]; exact List.filter_sublist all
  · intro p
    rw [h2]
    simp [List.mem_filter]

/-- C2 witness: filtering the repository's project list by "Python" keeps
exactly the projects tagged "Python". -/
theorem visibleProjects_spec_witness :
    visibleProjects PROJECTS "Python" =
      PROJECTS.filter (fun p => decide ("Python" ∈ p.tags)) :=
  (visibleProjects_spec PROJECTS "Python" (by decide)).2.1

/-- C4 counterexample: when the storage facility is unavailable, the
accent initializer propagates the storage error instead of returning the
palette default — there is no try/catch in `App.jsx` lines 224-226. -/
theorem loadAccent_unavailable_throws :
    loadAccent Storage.unavailable = Except.error () ∧
    loadAccent Storage.unavailable ≠ Except.ok accentDefault := by
  refine ⟨rfl, ?_⟩
  intro h
  cases h

/-- C4 amended: with storage available, load and save succeed; with
storage unavailable, both `loadAccent` and `saveAccent` propagate the
storage error past the Preference Store boundary (no containment). -/
theorem preferenceStore_error_propagation (a : String) (m : List (String × String)) :
    loadAccent Storage.unavailable = Except.error () ∧
    saveAccent Storage.unavailable a = Except.error () ∧
    (∃ v, loadAccent (Storage.available m) = Except.ok v) ∧
    (∃ s, saveAccent (Storage.available m) a = Except.ok s) := by
  refine ⟨rfl, rfl, ⟨jsOrDefault (m.lookup "accent") accentDefault, ?_⟩, ⟨_, rfl⟩⟩
  simp [loadAccent, getItem, Except.map]

/-- C5 counterexample: a persisted empty string is falsy under the `||`
default, so `load` returns the palette default instead of passing the
stored value through. -/
theorem loadAccent_empty_string_not_passthrough :
    loadAccent (Storage.available [("accent", "")]) = Except.ok "#7C3AED" ∧
    loadAccent (Storage.available [("accent", "")]) ≠ Except.ok "" := by
  refine ⟨rfl, ?_⟩
  intro h
  rw [show loadAccent (Storage.available [("accent", "")]) = Except.ok "#7C3AED" from rfl] at h
  simp at h

/-- C5 amended: with storage available, `load` returns the first palette
entry when no value (or the empty string) is stored under "accent", and
returns any nonempty stored string as-is without palette validation. -/
theorem loadAccent_available_spec (m : List (String × String)) :
    (m.lookup "accent" = none → loadAccent (Storage.available m) = Except.ok accentDefault) ∧
    (∀ v, m.lookup "accent" = some v → v ≠ "" →
      loadAccent (Storage.available m) = Except.ok v) ∧
    (m.lookup "accent" = some "" → loadAccent (Storage.available m) = Except.ok accentDefault) := by
  refine ⟨fun h => ?_, fun v hv hne => ?_, fun h => ?_⟩ <;>
    simp [loadAccent, getItem, Except.map, jsOrDefault, *]

/-- C5 witness: a stored non-palette nonempty string is returned as-is. -/
theorem loadAccent_available_spec_witness :
    loadAccent (Storage.available [("accent", "rebeccapurple")]) =
      Except.ok "rebeccapurple" :=
  (loadAccent_available_spec [("accent", "rebeccapurple")]).2.1
    "rebeccapurple" (by decide) (by decide)

/-- C6: for every palette value, saving the accent and then loading it on
the resulting storage returns that value. -/
theorem accent_roundtrip (m : List (String × String)) (a : String)
    (ha : a ∈ ACCENTS.map AccentPreset.value) :
    (saveAccent (Storage.available m) a).bind loadAccent = Except.ok a := by
  have hne : a ≠ "" := by
    simp [ACCENTS] at ha
    rcases ha with h | h | h | h | h | h <;> subst h <;> decide
  simp [saveAccent, setItem, Except.bind, loadAccent, getItem, Except.map,
    List.lookup, jsOrDefault, hne]

/-- C6 witness: the round trip at the "Ocean" palette value. -/
theorem accent_roundtrip_witness :
    (saveAccent (Storage.available []) "#06B6D4").bind loadAccent =
      Except.ok "#06B6D4" :=
  accent_roundtrip [] "#06B6D4" (by decide)

/-- C8: on clipboard success the toast is exactly the label followed by
" copied"; on any failure it is exactly "Copy failed", which is never the
success message; `copyMsg` is total, so no failure escapes. -/
theorem copy_outcome_spec (lbl : String) :
    copyMsg (Except.ok ()) lbl = lbl ++ " copied" ∧
    copyMsg (Except.error ()) lbl = "Copy failed" ∧
    copyMsg (Except.error ()) lbl ≠ lbl ++ " copied" := by
  refine ⟨rfl, rfl, ?_⟩
  intro h
  have hmsg : "Copy failed" = lbl ++ " copied" := h
  have h1 := congrArg String.data hmsg.symm
  rw [String.data_append] at h1
  have h2 : ("Copy failed").data = ("Copy").data ++ (" failed").data := by decide
  rw [h2] at h1
  have hsplit := List.append_inj' h1 (by decide)
  exact absurd hsplit.2 (by decide)

/-- C9: showing a second toast within the dismissal window of a first one
keeps the first visible until the second `show`, replaces the message (no
queue, at most one toast), leaves the toast visible at the first show's
deadline, and auto-clears it exactly 1800 ms after the second show. -/
theorem toast_replacement (m1 m2 : String) (t1 t2 : Int)
    (h1 : t1 < t2) (h2 : t2 < t1 + 1800) :
    toastTimerFire (toastShow none m1 t1) t2 = some (m1, t1 + 1800) ∧
    toastShow (toastShow none m1 t1) m2 t2 = some (m2, t2 + 1800) ∧
    toastTimerFire (toastShow (toastShow none m1 t1) m2 t2) (t1 + 1800) =
      some (m2, t2 + 1800) ∧
    toastTimerFire (toastShow (toastShow none m1 t1) m2 t2) (t2 + 1800) = none := by
  refine ⟨?_, rfl, ?_, ?_⟩ <;> simp [toastShow, toastTimerFire] <;> omega

/-- C9 witness: "Email copied" at 0 ms then "Copy failed" at 1000 ms —
still visible at 1800 ms, cleared at 2800 ms. -/
theorem toast_replacement_witness :
    toastTimerFire (toastShow (toastShow none "Email copied" 0) "Copy failed" 1000)
      (1000 + 1800) = none :=
  (toast_replacement "Email copied" "Copy failed" 0 1000 (by decide) (by decide)).2.2.2

/-- C7: for a project whose present links are nonempty strings, a present
gallery (ArtStation) link makes the gallery action the only action even
when code/live links exist, and with no gallery link the actions are the
code link if present then the live link if present, omitting absent ones. -/
theorem modal_gallery_exclusive (p : Project)
    (ha : ∀ u, p.links.artstation = some u → u ≠ "")
    (hc : ∀ u, p.links.source = some u → u ≠ "")
    (hl : ∀ u, p.links.live = some u → u ≠ "") :
    (∀ g, p.links.artstation = some g → modalActions p = [ModalAction.gallery g]) ∧
    (p.links.artstation = none →
      modalActions p =
        optList ModalAction.sourceLink p.links.source ++
        optList ModalAction.liveLink p.links.live) := by
  constructor
  · intro g hg
    simp [modalActions, hg, ha g hg]
  · intro hn
    have hsrc : (match p.links.source with
        | some c => if c = "" then [] else [ModalAction.sourceLink c]
        | none => ([] : List ModalAction)) = optList ModalAction.sourceLink p.links.source := by
      cases hs : p.links.source with
      | none => simp [optList]
      | some c => simp [optList, hc c hs]
    have hlv : (match p.links.live with
        | some v => if v = "" then [] else [ModalAction.liveLink v]
        | none => ([] : List ModalAction)) = optList ModalAction.liveLink p.links.live := by
      cases hv : p.links.live with
      | none => simp [optList]
      | some v => simp [optList, hl v hv]
    simp [modalActions, hn, codeLiveActions, hsrc, hlv]

/-- C7 witness: a project defining gallery, code and live links shows only
the gallery action. -/
theorem modal_gallery_exclusive_witness :
    modalActions
      { title := "w", short := "s", description := "d", tags := [],
        links := { live := some "https://l", source := some "https://c",
                   artstation := some "https://g" } } =
      [ModalAction.gallery "https://g"] :=
  (modal_gallery_exclusive _
    (fun u h => by injection h with h2; subst h2; decide)
    (fun u h => by injection h with h2; subst h2; decide)
    (fun u h => by injection h with h2; subst h2; decide)).1 "https://g" rfl

end Portfolio

namespace Portfolio

/-! ### Tag vocabulary lemmas (C3) -/

/-- Folding `addTag` appends exactly the first-seen deduplication of the
input, relative to the accumulator. -/
theorem foldl_addTag_eq : ∀ (l acc : List String),
    l.foldl addTag acc = acc ++ fsDedup acc l
  | [], acc => by simp [fsDedup]
  | t :: ts, acc => by
    by_cases hm : t ∈ acc
    · have hc : acc.contains t = true := by simp [List.elem_iff]; exact hm
      simp only [List.foldl_cons, fsDedup, hc, if_true, addTag]
      exact foldl_addTag_eq ts acc
    · have hc : acc.contains t = false := by simp [List.elem_iff]; exact hm
      simp only [List.foldl_cons, fsDedup, hc, if_false, addTag,
        Bool.false_eq_true]
      rw [foldl_addTag_eq ts (acc ++ [t])]
      simp

/-- The double fold over projects equals the fold over the flattened tag
list. -/
theorem foldl_projects_eq : ∀ (all : List Project) (acc : List String),
    all.foldl (fun acc p => p.tags.foldl addTag acc) acc =
      (flatTags all).foldl addTag acc
  | [], _ => rfl
  | p :: ps, acc => by
    simp only [List.foldl_cons, flatTags, List.foldl_append]
    exact foldl_projects_eq ps (p.tags.foldl addTag acc)

/-- Membership in a first-seen deduplication. -/
theorem mem_fsDedup (x : String) : ∀ (l seen : List String),
    x ∈ fsDedup seen l ↔ x ∈ l ∧ x ∉ seen
  | [], seen => by simp [fsDedup]
  | t :: ts, seen => by
    by_cases hm : t ∈ seen
    · have hc : seen.contains t = true := by simp [List.elem_iff]; exact hm
      simp only [fsDedup, hc, if_true]
      rw [mem_fsDedup x ts seen]
      constructor
      · rintro ⟨hx, hs⟩
        exact ⟨List.mem_cons_of_mem t hx, hs⟩
      · rintro ⟨hx, hs⟩
        rcases List.mem_cons.mp hx with rfl | hx
        · exact absurd hm hs
        · exact ⟨hx, hs⟩
    · have hc : seen.contains t = false := by simp [List.elem_iff]; exact hm
      simp only [fsDedup, hc, Bool.false_eq_true, if_false]
      rw [List.mem_cons, mem_fsDedup x ts (seen ++ [t])]
      constructor
      · rintro (rfl | ⟨hx, hs⟩)
        · exact ⟨List.mem_cons_self x ts, hm⟩
        · refine ⟨List.mem_cons_of_mem t hx, fun hxs => hs ?_⟩
          exact List.mem_append_left _ hxs
      · rintro ⟨hx, hs⟩
        rcases List.mem_cons.mp hx with rfl | hx
        · exact Or.inl rfl
        · by_cases hxt : x = t
          · exact Or.inl hxt
          · refine Or.inr ⟨hx, fun hmem => ?_⟩
            rcases List.mem_append.mp hmem with h1 | h1
            · exact hs h1
            · exact hxt (List.mem_singleton.mp h1)

/-- A first-seen deduplication has no duplicates. -/
theorem nodup_fsDedup : ∀ (l seen : List String), (fsDedup seen l).Nodup
  | [], seen => by simp [fsDedup]
  | t :: ts, seen => by
    by_cases hm : t ∈ seen
    · have hc : seen.contains t = true := by simp [List.elem_iff]; exact hm
      simp only [fsDedup, hc, if_true]
      exact nodup_fsDedup ts seen
    · have hc : seen.contains t = false := by simp [List.elem_iff]; exact hm
      simp only [fsDedup, hc, Bool.false_eq_true, if_false]
      refine List.nodup_cons.mpr ⟨fun hmem => ?_, nodup_fsDedup ts (seen ++ [t])⟩
      have := (mem_fsDedup t ts (seen ++ [t])).mp hmem
      exact this.2 (List.mem_append_right _ (List.mem_singleton.mpr rfl))

/-- `firstIdx` of a non-head element of a cons. -/
theorem firstIdx_cons_ne (x t : String) (ts : List String) (h : x ≠ t) :
    firstIdx x (t :: ts) = firstIdx x ts + 1 := by
  have h2 : ¬ t = x := fun he => h he.symm
  simp [firstIdx, h2]

/-- The elements of a first-seen deduplication appear in order of their
first occurrence in the input. -/
theorem pairwise_firstIdx_fsDedup : ∀ (l seen : List String),
    (fsDedup seen l).Pairwise (fun a b => firstIdx a l < firstIdx b l)
  | [], seen => by simp [fsDedup]
  | t :: ts, seen => by
    by_cases hm : t ∈ seen
    · have hc : seen.contains t = true := by simp [List.elem_iff]; exact hm
      simp only [fsDedup, hc, if_true]
      refine (pairwise_firstIdx_fsDedup ts seen).imp_of_mem ?_
      intro a b ha hb hr
      have ha2 := (mem_fsDedup a ts seen).mp ha
      have hb2 := (mem_fsDedup b ts seen).mp hb
      have hat : a ≠ t := fun he => ha2.2 (he ▸ hm)
      have hbt : b ≠ t := fun he => hb2.2 (he ▸ hm)
      rw [firstIdx_cons_ne a t ts hat, firstIdx_cons_ne b t ts hbt]
      omega
    · have hc : seen.contains t = false := by simp [List.elem_iff]; exact hm
      simp only [fsDedup, hc, Bool.false_eq_true, if_false]
      refine List.pairwise_cons.mpr ⟨?_, ?_⟩
      · intro b hb
        have hb2 := (mem_fsDedup b ts (seen ++ [t])).mp hb
        have hbt : b ≠ t := fun he => hb2.2 (by simp [he])
        have h0 : firstIdx t (t :: ts) = 0 := by simp [firstIdx]
        rw [h0, firstIdx_cons_ne b t ts hbt]
        omega
      · refine (pairwise_firstIdx_fsDedup ts (seen ++ [t])).imp_of_mem ?_
        intro a b ha hb hr
        have ha2 := (mem_fsDedup a ts (seen ++ [t])).mp ha
        have hb2 := (mem_fsDedup b ts (seen ++ [t])).mp hb
        have hat : a ≠ t := fun he => ha2.2 (by simp [he])
        have hbt : b ≠ t := fun he => hb2.2 (by simp [he])
        rw [firstIdx_cons_ne a t ts hat, firstIdx_cons_ne b t ts hbt]
        omega

/-- A string is among the flattened tags exactly when some project of the
list carries it. -/
theorem mem_flatTags (x : String) : ∀ all : List Project,
    x ∈ flatTags all ↔ ∃ p ∈ all, x ∈ p.tags
  | [] => by simp [flatTags]
  | p :: ps => by
    simp only [flatTags, List.mem_append, mem_flatTags x ps]
    constructor
    · rintro (hx | ⟨q, hq, hx⟩)
      · exact ⟨p, List.mem_cons_self p ps, hx⟩
      · exact ⟨q, List.mem_cons_of_mem p hq, hx⟩
    · rintro ⟨q, hq, hx⟩
      rcases List.mem_cons.mp hq with rfl | hq
      · exact Or.inl hx
      · exact Or.inr ⟨q, hq, hx⟩

/-- C3: the derived tag vocabulary starts with "All", and its tail lists
each tag carried by some project exactly once (case-sensitive), ordered by
first appearance across the project list. -/
theorem allTags_spec (all : List Project) :
    (allTags all).head? = some "All" ∧
    (∀ t, t ∈ (allTags all).tail ↔ ∃ p ∈ all, t ∈ p.tags) ∧
    (allTags all).tail.Nodup ∧
    (allTags all).tail.Pairwise
      (fun a b => firstIdx a (flatTags all) < firstIdx b (flatTags all)) := by
  have htail : (allTags all).tail = fsDedup [] (flatTags all) := by
    have h1 : (allTags all).tail = (flatTags all).foldl addTag [] := by
      rw [allTags, List.tail_cons, foldl_projects_eq]
    rw [h1, foldl_addTag_eq, List.nil_append]
  refine ⟨rfl, ?_, ?_, ?_⟩ <;> rw [htail]
  · intro t
    rw [mem_fsDedup, mem_flatTags]
    simp
  · exact nodup_fsDedup _ _
  · exact pairwise_firstIdx_fsDedup _ _

end Portfolio

namespace Portfolio

/-! ### Scroll-spy lemmas (C1) -/

/-- Membership in a stable descending insertion. -/
theorem mem_insertDesc (x e : IEntry) : ∀ l : List IEntry,
    x ∈ insertDesc e l ↔ x = e ∨ x ∈ l
  | [] => by simp [insertDesc]
  | y :: ys => by
    rw [insertDesc]
    by_cases h : ratioKey y < ratioKey e
    · simp [if_pos h]
    · rw [if_neg h]
      simp only [List.mem_cons, mem_insertDesc x e ys]
      tauto

/-- Inserting keeps the list sorted by descending ratio key. -/
theorem pairwise_insertDesc (e : IEntry) : ∀ l : List IEntry,
    l.Pairwise (fun a b => ratioKey b ≤ ratioKey a) →
    (insertDesc e l).Pairwise (fun a b => ratioKey b ≤ ratioKey a)
  | [], _ => by simp [insertDesc]
  | y :: ys, h => by
    rcases List.pairwise_cons.mp h with ⟨hy, hys⟩
    rw [insertDesc]
    by_cases hlt : ratioKey y < ratioKey e
    · rw [if_pos hlt]
      refine List.pairwise_cons.mpr ⟨?_, h⟩
      intro b hb
      rcases List.mem_cons.mp hb with rfl | hb
      · exact le_of_lt hlt
      · exact le_trans (hy b hb) (le_of_lt hlt)
    · rw [if_neg hlt]
      refine List.pairwise_cons.mpr ⟨?_, pairwise_insertDesc e ys hys⟩
      intro b hb
      rcases (mem_insertDesc b e ys).mp hb with rfl | hb
      · exact le_of_not_lt hlt
      · exact hy b hb

/-- Membership in the stable descending sort (with accumulator). -/
theorem mem_foldl_insertDesc (x : IEntry) : ∀ (l acc : List IEntry),
    x ∈ l.foldl (fun acc e => insertDesc e acc) acc ↔ x ∈ acc ∨ x ∈ l
  | [], acc => by simp
  | e :: es, acc => by
    simp only [List.foldl_cons]
    rw [mem_foldl_insertDesc x es (insertDesc e acc), mem_insertDesc]
    simp only [List.mem_cons]
    tauto

/-- Membership in the stable descending sort. -/
theorem mem_sortDesc (x : IEntry) (l : List IEntry) :
    x ∈ sortDesc l ↔ x ∈ l := by
  rw [sortDesc, mem_foldl_insertDesc]
  simp

/-- The stable descending sort is sorted by descending ratio key. -/
theorem pairwise_sortDesc (l : List IEntry) :
    (sortDesc l).Pairwise (fun a b => ratioKey b ≤ ratioKey a) := by
  rw [sortDesc]
  have haux : ∀ (l acc : List IEntry),
      acc.Pairwise (fun a b => ratioKey b ≤ ratioKey a) →
      (l.foldl (fun acc e => insertDesc e acc) acc).Pairwise
        (fun a b => ratioKey b ≤ ratioKey a) := by
    intro l
    induction l with
    | nil => intro acc h; exact h
    | cons e es ih =>
      intro acc h
      exact ih (insertDesc e acc) (pairwise_insertDesc e acc h)
  exact haux l [] (by simp)

/-- The head of the sorted intersecting entries carries a maximal ratio
key among them. -/
theorem head_sortDesc_max (l : List IEntry) (e : IEntry) (rest : List IEntry)
    (h : sortDesc l = e :: rest) : ∀ x ∈ l, ratioKey x ≤ ratioKey e := by
  intro x hx
  have hx2 : x ∈ sortDesc l := (mem_sortDesc x l).mpr hx
  rw [h] at hx2
  rcases List.mem_cons.mp hx2 with rfl | hx2
  · exact le_refl _
  · exact (List.pairwise_cons.mp (h ▸ pairwise_sortDesc l)).1 x hx2

/-- One scroll-spy callback leaves the active id unchanged when no entry
is intersecting. -/
theorem scrollSpyStep_no_intersect (active : String) (entries : List IEntry)
    (h : ∀ e ∈ entries, e.isIntersecting = false) :
    scrollSpyStep active entries = active := by
  have hf : entries.filter (fun e => e.isIntersecting) = [] :=
    List.filter_eq_nil_iff.mpr (by intro e he; simp [h e he])
  simp [scrollSpyStep, hf, sortDesc]

/-- One scroll-spy callback step stays inside the configured id set. -/
theorem scrollSpyStep_mem (ids : List String) (active : String)
    (entries : List IEntry) (hmem : ∀ e ∈ entries, e.id ∈ ids)
    (hact : active ∈ ids) : scrollSpyStep active entries ∈ ids := by
  rw [scrollSpyStep]
  cases hv : sortDesc (entries.filter (fun e => e.isIntersecting)) with
  | nil => exact hact
  | cons e rest =>
    have he : e ∈ entries := by
      have : e ∈ sortDesc (entries.filter (fun e => e.isIntersecting)) := by
        rw [hv]; exact List.mem_cons_self e rest
      exact List.mem_of_mem_filter ((mem_sortDesc _ _).mp this)
    by_cases hid : e.id = ""
    · simp [hid, hact]
    · simp [hid]
      exact hmem e he

/-- When some entry is intersecting, the callback sets active to the id of
an intersecting entry of maximal intersection ratio. -/
theorem scrollSpyStep_top (ids : List String) (hids : "" ∉ ids)
    (active : String) (entries : List IEntry)
    (hmem : ∀ e ∈ entries, e.id ∈ ids)
    (hsome : ∃ e ∈ entries, e.isIntersecting = true) :
    ∃ e ∈ entries, e.isIntersecting = true ∧ scrollSpyStep active entries = e.id ∧
      ∀ x ∈ entries, x.isIntersecting = true → ratioKey x ≤ ratioKey e := by
  rcases hsome with ⟨e0, he0, hi0⟩
  have he0f : e0 ∈ entries.filter (fun e => e.isIntersecting) :=
    List.mem_filter.mpr ⟨he0, hi0⟩
  cases hv : sortDesc (entries.filter (fun e => e.isIntersecting)) with
  | nil =>
    exact absurd ((mem_sortDesc _ _).mpr he0f) (by rw [hv]; simp)
  | cons e rest =>
    have hef : e ∈ entries.filter (fun e => e.isIntersecting) := by
      have : e ∈ sortDesc (entries.filter (fun e => e.isIntersecting)) := by
        rw [hv]; exact List.mem_cons_self e rest
      exact (mem_sortDesc _ _).mp this
    rcases List.mem_filter.mp hef with ⟨he, hi⟩
    have hid : e.id ≠ "" := fun h => hids (h ▸ hmem e he)
    refine ⟨e, he, hi, ?_, ?_⟩
    · rw [scrollSpyStep, hv]
      simp [hid]
    · intro x hx hxi
      exact head_sortDesc_max _ e rest hv x (List.mem_filter.mpr ⟨hx, hxi⟩)

/-- C1: starting from the initial state, after any sequence of observer
batches whose entries name configured sections, the active id is a member
of the configured (nonempty, truthy) id list; and each batch leaves the
active id unchanged when nothing intersects, and otherwise sets it to the
id of an intersecting entry of maximal intersection ratio. -/
theorem scrollSpy_active_spec (ids : List String) (hne : ids ≠ [])
    (hids : "" ∉ ids) (batches : List (List IEntry))
    (hb : ∀ b ∈ batches, ∀ e ∈ b, e.id ∈ ids) :
    scrollSpyRun ids batches ∈ ids ∧
    (∀ active entries, active ∈ ids → (∀ e ∈ entries, e.id ∈ ids) →
      scrollSpyStep active entries ∈ ids ∧
      ((∀ e ∈ entries, e.isIntersecting = false) →
        scrollSpyStep active entries = active) ∧
      ((∃ e ∈ entries, e.isIntersecting = true) →
        ∃ e ∈ entries, e.isIntersecting = true ∧
          scrollSpyStep active entries = e.id ∧
          ∀ x ∈ entries, x.isIntersecting = true → ratioKey x ≤ ratioKey e)) := by
  constructor
  · have hinit : scrollSpyInit ids ∈ ids := by
      cases ids with
      | nil => exact absurd rfl hne
      | cons x xs => exact List.mem_cons_self x xs
    rw [scrollSpyRun]
    have haux : ∀ (bs : List (List IEntry)) (a : String), a ∈ ids →
        (∀ b ∈ bs, ∀ e ∈ b, e.id ∈ ids) →
        bs.foldl scrollSpyStep a ∈ ids := by
      intro bs
      induction bs with
      | nil => intro a ha _; exact ha
      | cons b rest ih =>
        intro a ha hwf
        rw [List.foldl_cons]
        refine ih (scrollSpyStep a b) ?_ ?_
        · exact scrollSpyStep_mem ids a b (hwf b (List.mem_cons_self b rest)) ha
        · intro b2 hb2 e he
          exact hwf b2 (List.mem_cons_of_mem b hb2) e he
    exact haux batches (scrollSpyInit ids) hinit hb
  · intro active entries hact hmem
    exact ⟨scrollSpyStep_mem ids active entries hmem hact,
      scrollSpyStep_no_intersect active entries,
      scrollSpyStep_top ids hids active entries hmem⟩

/-- C1 witness: with the configured section list and one batch where
"about" intersects with a higher ratio than "home" (ratios in per mille),
the active id stays in the list (and is in fact "about"). -/
theorem scrollSpy_active_spec_witness :
    scrollSpyRun ["home", "about", "skills", "projects", "experience", "contact"]
      [[⟨"home", true, some 300⟩, ⟨"about", true, some 500⟩]] ∈
      ["home", "about", "skills", "projects", "experience", "contact"] :=
  (scrollSpy_active_spec
    ["home", "about", "skills", "projects", "experience", "contact"]
    (by decide) (by decide)
    [[⟨"home", true, some 300⟩, ⟨"about", true, some 500⟩]]
    (by decide)).1

end Portfolio
